import Mathlib

/-!
Verification of the flockd storage engine (flockd.go) against its
natural-language specification.

The engine stores one record per file: a table is a directory, a record for
key `k` is the file `k ++ ".kv"` inside it, and writes go through a
temporary file that is renamed onto the destination while holding advisory
file locks.  We embed the filesystem shallowly: Go strings become lists of
characters, the visible directory tree becomes an association list from
full path to entry (in directory-listing order), and the advisory locks
held by *other* lockers become a function from path to lock state.  Each
public operation of `Table` is translated statement by statement from
flockd.go; lock acquisition against an external holder that does not
release within the timeout succeeds exactly when the requested mode is
compatible with the externally held mode.
-/

set_option autoImplicit false

namespace Flockd

/-- Go strings are modelled as lists of characters. -/
abbrev Str := List Char

/-- Go byte slices (record values) are modelled as lists of bytes. -/
abbrev Bytes := List Nat

/-- The character `os.PathSeparator` expands to on Unix. -/
def pathSep : Char := '/'

/-- The record-file extension `recExt = ".kv"` (flockd.go line 41). -/
def recExt : Str := ['.', 'k', 'v']

/-- The table-directory extension `tblExt = ".tbl"` (flockd.go line 40). -/
def tblExt : Str := ['.', 't', 'b', 'l']

/-- A directory entry: a regular file with its byte content, or a
subdirectory. -/
inductive Entry
  | file (content : Bytes)
  | dir
  deriving DecidableEq

/-- Mirrors `os.FileInfo.IsDir`. -/
def Entry.isDir : Entry → Bool
  | .dir => true
  | .file _ => false

/-- The advisory-lock state an external locker holds on a path. -/
inductive LockSt
  | free
  | shared
  | exclusive
  deriving DecidableEq

/-- The error kinds the engine can surface, one constructor per
distinguishable kind: `invalid` is `os.ErrInvalid`, `notExist` is
`os.ErrNotExist`, `exist` is `os.ErrExist`, `timeout` is
`context.DeadlineExceeded` from an expired lock wait, `eisdir` is the
EISDIR `PathError`/`LinkError` from reading, opening for write, or renaming
onto a directory, `notDir` is the ENOTDIR error from listing a
non-directory, and `tempFail` is `ioutil.TempFile` giving up after its
retries collide. -/
inductive Err
  | invalid
  | notExist
  | exist
  | timeout
  | eisdir
  | notDir
  | tempFail
  deriving DecidableEq

/-- First entry for a path in a directory listing. -/
def findEnt : List (Str × Entry) → Str → Option Entry
  | [], _ => none
  | (q, e) :: rest, p => if q = p then some e else findEnt rest p

/-- Replace the first entry for a path, or append a new one. -/
def setEnt : List (Str × Entry) → Str → Entry → List (Str × Entry)
  | [], p, e => [(p, e)]
  | (q, d) :: rest, p, e =>
    if q = p then (q, e) :: rest else (q, d) :: setEnt rest p e

/-- Remove every entry for a path. -/
def eraseEnt : List (Str × Entry) → Str → List (Str × Entry)
  | [], _ => []
  | (q, d) :: rest, p =>
    if q = p then eraseEnt rest p else (q, d) :: eraseEnt rest p

/-- The filesystem as one operation sees it: the visible entries, plus the
advisory locks held by other lockers (the operation's own transient locks
are acquired and released within the operation). -/
structure FS where
  entries : List (Str × Entry)
  locks : Str → LockSt

def FS.find (fs : FS) (p : Str) : Option Entry := findEnt fs.entries p

def FS.setE (fs : FS) (p : Str) (e : Entry) : FS :=
  { fs with entries := setEnt fs.entries p e }

def FS.erase (fs : FS) (p : Str) : FS :=
  { fs with entries := eraseEnt fs.entries p }

/-- Well-formed listing: one entry per path. -/
def FS.wf (fs : FS) : Prop := (fs.entries.map Prod.fst).Nodup

/-- Go `filepath.Join(dir, name)` for a clean directory and a clean,
separator-free name. -/
def joinPath (dir name : Str) : Str := dir ++ pathSep :: name

/-- The path of the record file for a key: `filepath.Join(table.path,
key+recExt)` as used by Get/Set/Create/Update/Delete. -/
def recPath (tp key : Str) : Str := joinPath tp (key ++ recExt)

/-- Split an `ioutil.TempFile` pattern at its last asterisk (Go 1.11+
`prefixAndSuffix`): the random string replaces the last `'*'` of the
pattern; a pattern without `'*'` keeps the random string appended. -/
def patSplit (pattern : Str) : Str × Str :=
  if (pattern.reverse.takeWhile (fun c => c != '*')).length
      = pattern.reverse.length then (pattern, [])
  else
    ((pattern.reverse.drop
        ((pattern.reverse.takeWhile (fun c => c != '*')).length + 1)).reverse,
      (pattern.reverse.takeWhile (fun c => c != '*')).reverse)

/-- The name `ioutil.TempFile(table.path, key+recExt)` gives the temporary
file when it draws the random string `rand` (flockd.go line 487). -/
def tempName (key rand : Str) : Str :=
  (patSplit (key ++ recExt)).1 ++ rand ++ (patSplit (key ++ recExt)).2

/-- Full path of the temporary file. -/
def tmpPath (tp key rand : Str) : Str := joinPath tp (tempName key rand)

/-- Function `lockFile` (flockd.go 458-472) polls for a shared or exclusive flock
until the timeout.  Against an external holder that does not release within
the timeout, acquisition succeeds iff the requested mode is compatible with
the held mode. -/
def canLock (fs : FS) (p : Str) (exclusive : Bool) : Bool :=
  match exclusive, fs.locks p with
  | true, .free => true
  | true, _ => false
  | false, .exclusive => false
  | false, _ => true

/-- Library `gofrs/flock` opens the lock path with `O_CREATE` before issuing the
flock syscall, creating an empty file when the path does not yet exist. -/
def FS.flockEnsure (fs : FS) (p : Str) : FS :=
  match fs.find p with
  | none => fs.setE p (.file [])
  | some _ => fs

/-- Method `Table.writeTemp` (flockd.go 485-512): create a fresh temporary file
via `ioutil.TempFile`, take an exclusive lock on it (removing the file when
the lock wait times out), then write the value and sync.  `rand` is the
random string TempFile draws; a colliding `rand` stands for TempFile
exhausting its retries. -/
def writeTemp (tp key : Str) (value : Bytes) (rand : Str) (fs : FS) :
    FS × Except Err Str :=
  match fs.find (tmpPath tp key rand) with
  | some _ => (fs, .error .tempFail)
  | none =>
    if canLock (fs.setE (tmpPath tp key rand) (.file [])) (tmpPath tp key rand) true then
      ((fs.setE (tmpPath tp key rand) (.file [])).setE (tmpPath tp key rand) (.file value),
        .ok (tmpPath tp key rand))
    else ((fs.setE (tmpPath tp key rand) (.file [])).erase (tmpPath tp key rand),
        .error .timeout)

/-- Method `Table.Get` (flockd.go 193-223): reject keys holding the path
separator; open the record file (`ErrNotExist` when absent); take a shared
lock, timing out against an exclusive holder; read the whole file (EISDIR
when the opened path is a directory). -/
def Table.Get (tp key : Str) (fs : FS) : Except Err Bytes :=
  if pathSep ∈ key then .error .invalid
  else
    match fs.find (recPath tp key) with
    | none => .error .notExist
    | some e =>
      if canLock fs (recPath tp key) false then
        match e with
        | .file c => .ok c
        | .dir => .error .eisdir
      else .error .timeout

/-- Method `Table.Set` (flockd.go 239-264): reject separator keys; write the value
to a locked temporary file; take an exclusive lock on the destination path
(the flock open creates it when absent), releasing and removing the
temporary file when the wait times out; rename the temporary file onto the
destination (EISDIR when the destination is a directory). -/
def Table.Set (tp key : Str) (value : Bytes) (rand : Str) (fs : FS) :
    FS × Except Err Unit :=
  if pathSep ∈ key then (fs, .error .invalid)
  else
    match writeTemp tp key value rand fs with
    | (fs1, .error e) => (fs1, .error e)
    | (fs1, .ok t) =>
      if canLock (fs1.flockEnsure (recPath tp key)) (recPath tp key) true then
        match (fs1.flockEnsure (recPath tp key)).find (recPath tp key) with
        | some .dir => ((fs1.flockEnsure (recPath tp key)).erase t, .error .eisdir)
        | _ =>
          (((fs1.flockEnsure (recPath tp key)).erase t).setE (recPath tp key) (.file value),
            .ok ())
      else ((fs1.flockEnsure (recPath tp key)).erase t, .error .timeout)

/-- Method `Table.Create` (flockd.go 283-322): reject separator keys; open the
destination with `O_CREATE|O_EXCL` (failing at once with `ErrExist` when it
is already present, leaving everything untouched); probe the flock once
without waiting, answering `ErrExist` when another locker holds it; then
write the locked temporary file and rename it onto the destination. -/
def Table.Create (tp key : Str) (value : Bytes) (rand : Str) (fs : FS) :
    FS × Except Err Unit :=
  if pathSep ∈ key then (fs, .error .invalid)
  else
    match fs.find (recPath tp key) with
    | some _ => (fs, .error .exist)
    | none =>
      if canLock (fs.setE (recPath tp key) (.file [])) (recPath tp key) true then
        match writeTemp tp key value rand (fs.setE (recPath tp key) (.file [])) with
        | (fs2, .error e) => (fs2, .error e)
        | (fs2, .ok t) => ((fs2.erase t).setE (recPath tp key) (.file value), .ok ())
      else (fs.setE (recPath tp key) (.file []), .error .exist)

/-- Method `Table.Update` (flockd.go 342-375): reject separator keys; open the
destination with `O_WRONLY` (`ErrNotExist` when absent, EISDIR when it is a
directory); write the locked temporary file; take an exclusive lock on the
destination, releasing and removing the temporary file on timeout; rename
the temporary file onto the destination. -/
def Table.Update (tp key : Str) (value : Bytes) (rand : Str) (fs : FS) :
    FS × Except Err Unit :=
  if pathSep ∈ key then (fs, .error .invalid)
  else
    match fs.find (recPath tp key) with
    | none => (fs, .error .notExist)
    | some .dir => (fs, .error .eisdir)
    | some (.file _) =>
      match writeTemp tp key value rand fs with
      | (fs1, .error e) => (fs1, .error e)
      | (fs1, .ok t) =>
        if canLock (fs1.flockEnsure (recPath tp key)) (recPath tp key) true then
          (((fs1.flockEnsure (recPath tp key)).erase t).setE (recPath tp key) (.file value),
            .ok ())
        else ((fs1.flockEnsure (recPath tp key)).erase t, .error .timeout)

/-- Method `Table.Delete` (flockd.go 384-416): reject separator keys; open the
record file, succeeding at once when it is already gone; answer
`ErrInvalid` when the opened path is a directory; take an exclusive lock on
it, then remove it. -/
def Table.Delete (tp key : Str) (fs : FS) : FS × Except Err Unit :=
  if pathSep ∈ key then (fs, .error .invalid)
  else
    match fs.find (recPath tp key) with
    | none => (fs, .ok ())
    | some .dir => (fs, .error .invalid)
    | some (.file _) =>
      if canLock fs (recPath tp key) true then (fs.erase (recPath tp key), .ok ())
      else (fs, .error .timeout)

/-- Go `strings.TrimSuffix`: drop the suffix when present, else return the
string unchanged. -/
def trimSuffix (s suf : Str) : Str :=
  if suf.isSuffixOf s then s.take (s.length - suf.length) else s

/-- Go `strings.TrimPrefix`: drop the leading pattern when present, else
return the string unchanged. -/
def trimPref (pre s : Str) : Str :=
  if pre.isPrefixOf s then s.drop pre.length else s

/-- Final element of a path: the part after the last separator. -/
def lastElem (p : Str) : Str :=
  (p.reverse.takeWhile (fun c => c != pathSep)).reverse

/-- Go `filepath.Ext`: the suffix of the final path element starting at its
last dot; empty when the final element has no dot. -/
def extOf (p : Str) : Str :=
  if ((p.reverse.takeWhile (fun c => c != pathSep)).takeWhile (fun c => c != '.')).length
      = (p.reverse.takeWhile (fun c => c != pathSep)).length then []
  else
    '.' :: ((p.reverse.takeWhile (fun c => c != pathSep)).takeWhile (fun c => c != '.')).reverse

/-- A direct child of directory `tp`: when `p` is `tp` plus a separator
plus a separator-free `name`, yield `name` (the single `Readdir` entry
name for that path). -/
def childName (tp p : Str) : Option Str :=
  if (tp ++ [pathSep]).isPrefixOf p ∧ pathSep ∉ p.drop (tp.length + 1) then
    some (p.drop (tp.length + 1))
  else none

/-- The table directory's listing, as `Readdir` returns it: name and entry
of each direct child. -/
def dirList (fs : FS) (tp : Str) : List (Str × Entry) :=
  fs.entries.filterMap (fun pe => (childName tp pe.1).map (fun n => (n, pe.2)))

/-- Method `Table.ForEach`'s loop body over the listing (flockd.go
440-451): keep entries whose extension is `recExt` and that are not
directories, strip the extension to get the key, fetch the value via
`Get`, hand key and value to the callback, and stop at the first error.
The returned list is the trace of callback invocations. -/
def forEachAux (tp : Str) (fs : FS) (cb : Str → Bytes → Except Err Unit) :
    List (Str × Entry) → List (Str × Bytes) × Except Err Unit
  | [] => ([], .ok ())
  | (name, e) :: rest =>
    if extOf name = recExt ∧ e.isDir = false then
      match Table.Get tp (trimSuffix name recExt) fs with
      | .error er => ([], .error er)
      | .ok v =>
        match cb (trimSuffix name recExt) v with
        | .error er => ([(trimSuffix name recExt, v)], .error er)
        | .ok _ =>
          ((trimSuffix name recExt, v) :: (forEachAux tp fs cb rest).1,
            (forEachAux tp fs cb rest).2)
    else forEachAux tp fs cb rest

/-- Method `Table.ForEach` (flockd.go 429-454): open the table directory
(failing when it is absent or not a directory), read its listing in
batches of 1024 (`Readdir` batching is invisible in a static tree) and run
the loop body over it. -/
def Table.ForEach (tp : Str) (fs : FS) (cb : Str → Bytes → Except Err Unit) :
    List (Str × Bytes) × Except Err Unit :=
  match fs.find tp with
  | some .dir => forEachAux tp fs cb (dirList fs tp)
  | some (.file _) => ([], .error .notDir)
  | none => ([], .error .notExist)

/-- Reference evaluator used to state C7: process the listed records in
order, halting at the first `Get` or callback error and returning it. -/
def runRecords (cb : Str → Bytes → Except Err Unit) :
    List (Str × Except Err Bytes) → List (Str × Bytes) × Except Err Unit
  | [] => ([], .ok ())
  | (_, .error er) :: _ => ([], .error er)
  | (k, .ok v) :: rest =>
    match cb k v with
    | .error er => ([(k, v)], .error er)
    | .ok _ => ((k, v) :: (runRecords cb rest).1, (runRecords cb rest).2)

/-- Record selection over a listing: key and `Get` result of each record
entry. -/
def recSelRes (tp : Str) (fs : FS) (L : List (Str × Entry)) :
    List (Str × Except Err Bytes) :=
  L.filterMap (fun ne =>
    if extOf ne.1 = recExt ∧ ne.2.isDir = false then
      some (trimSuffix ne.1 recExt, Table.Get tp (trimSuffix ne.1 recExt) fs)
    else none)

/-- Keys and `Get` results of the records of table `tp`. -/
def recsRes (fs : FS) (tp : Str) : List (Str × Except Err Bytes) :=
  recSelRes tp fs (dirList fs tp)

/-- Keys and stored contents of the records of table `tp`: the record
files of the listing with the extension stripped. -/
def records (fs : FS) (tp : Str) : List (Str × Bytes) :=
  (dirList fs tp).filterMap (fun ne =>
    match ne.2 with
    | .file c =>
      if extOf ne.1 = recExt then some (trimSuffix ne.1 recExt, c) else none
    | .dir => none)

/-- Struct `DB` (flockd.go 47-50): the root table path plus the cached
name-to-path table mapping (the `sync.Map`). -/
structure DB where
  root : Str
  tables : List (Str × Str)

/-- Method `DB.Tables` (flockd.go 155-177): walk the tree from the root
and collect, as name-path pairs, the root directory plus every directory
whose extension is `tblExt`; the name strips the root prefix and the
`tblExt` suffix.  The cached `tables` field is never consulted and never
written. -/
def DB.Tables (db : DB) (fs : FS) : List (Str × Str) :=
  ((db.root, Entry.dir) ::
      fs.entries.filter (fun pe => (db.root ++ [pathSep]).isPrefixOf pe.1)).filterMap
    (fun pe =>
      if pe.2.isDir = false ∨ (extOf pe.1 ≠ tblExt ∧ pe.1 ≠ db.root) then none
      else some
        (if pe.1 = db.root then []
          else trimSuffix (trimPref (db.root ++ [pathSep]) pe.1) tblExt, pe.1))

/-- Concrete fixtures used by the witnesses and counterexamples. -/
def sampTp : Str := ['t']

def sampKey : Str := ['k']

def sampKey2 : Str := ['h']

def sampBad : Str := ['a', '/', 'b']

def sampVal : Bytes := [1, 2]

def sampVal2 : Bytes := [3]

def sampRand : Str := ['7']

def fsEmpty : FS := ⟨[], fun _ => .free⟩

def fsOne : FS := ⟨[(recPath sampTp sampKey, .file sampVal)], fun _ => .free⟩

def fsTwo : FS := ⟨[(recPath sampTp sampKey2, .file sampVal2)], fun _ => .free⟩

def fsLocked : FS :=
  ⟨[(recPath sampTp sampKey, .file sampVal)],
    fun p => if p = recPath sampTp sampKey then .exclusive else .free⟩

def fsDir : FS := ⟨[(recPath sampTp sampKey, .dir)], fun _ => .free⟩

def fsIter : FS :=
  ⟨[(sampTp, .dir),
    (joinPath sampTp ['a', '.', 'k', 'v'], .file [5]),
    (joinPath sampTp ['b', '.', 't', 'x', 't'], .file [6])],
    fun _ => .free⟩

def rootSamp : Str := ['r']

def fsWalk : FS :=
  ⟨[(joinPath rootSamp ['a', '.', 't', 'b', 'l'], .dir),
    (joinPath rootSamp ['b'], .dir),
    (joinPath rootSamp ['c', '.', 'k', 'v'], .file [1])],
    fun _ => .free⟩

def cacheSamp : List (Str × Str) := [(['x'], ['y'])]

/-! ### Listing toolkit -/

theorem findEnt_setEnt_self (l : List (Str × Entry)) (p : Str) (e : Entry) :
    findEnt (setEnt l p e) p = some e := by
  induction l with
  | nil => simp [setEnt, findEnt]
  | cons hd rest ih =>
    obtain ⟨q, d⟩ := hd
    by_cases hq : q = p
    · simp [setEnt, findEnt, hq]
    · simp [setEnt, findEnt, hq, ih]

theorem findEnt_setEnt_ne (l : List (Str × Entry)) (p q : Str) (e : Entry)
    (h : q ≠ p) : findEnt (setEnt l p e) q = findEnt l q := by
  induction l with
  | nil => simp [setEnt, findEnt, Ne.symm h]
  | cons hd rest ih =>
    obtain ⟨a, d⟩ := hd
    by_cases ha : a = p
    · subst ha
      simp [setEnt, findEnt, Ne.symm h]
    · simp only [setEnt, if_neg ha, findEnt]
      by_cases haq : a = q <;> simp [haq, ih]

theorem findEnt_eraseEnt_self (l : List (Str × Entry)) (p : Str) :
    findEnt (eraseEnt l p) p = none := by
  induction l with
  | nil => simp [eraseEnt, findEnt]
  | cons hd rest ih =>
    obtain ⟨q, d⟩ := hd
    by_cases hq : q = p
    · simp [eraseEnt, hq, ih]
    · simp [eraseEnt, findEnt, hq, ih]

theorem findEnt_eraseEnt_ne (l : List (Str × Entry)) (p q : Str)
    (h : q ≠ p) : findEnt (eraseEnt l p) q = findEnt l q := by
  induction l with
  | nil => simp [eraseEnt]
  | cons hd rest ih =>
    obtain ⟨a, d⟩ := hd
    by_cases ha : a = p
    · subst ha
      simp [eraseEnt, findEnt, Ne.symm h, ih]
    · simp only [eraseEnt, if_neg ha, findEnt]
      by_cases haq : a = q <;> simp [haq, ih]

theorem setEnt_setEnt (l : List (Str × Entry)) (p : Str) (a b : Entry) :
    setEnt (setEnt l p a) p b = setEnt l p b := by
  induction l with
  | nil => simp [setEnt]
  | cons hd rest ih =>
    obtain ⟨q, d⟩ := hd
    by_cases hq : q = p <;> simp [setEnt, hq, ih]

theorem eraseEnt_setEnt (l : List (Str × Entry)) (p : Str) (e : Entry)
    (h : findEnt l p = none) : eraseEnt (setEnt l p e) p = l := by
  induction l with
  | nil => simp [setEnt, eraseEnt]
  | cons hd rest ih =>
    obtain ⟨q, d⟩ := hd
    by_cases hq : q = p
    · simp [findEnt, hq] at h
    · simp only [findEnt, if_neg hq] at h
      simp [setEnt, eraseEnt, hq, ih h]

theorem eraseEnt_of_find_none (l : List (Str × Entry)) (p : Str)
    (h : findEnt l p = none) : eraseEnt l p = l := by
  induction l with
  | nil => simp [eraseEnt]
  | cons hd rest ih =>
    obtain ⟨q, d⟩ := hd
    by_cases hq : q = p
    · simp [findEnt, hq] at h
    · simp only [findEnt, if_neg hq] at h
      simp [eraseEnt, hq, ih h]

/-! ### Filesystem-level wrappers -/

@[simp] theorem FS.locks_setE (fs : FS) (p : Str) (e : Entry) :
    (fs.setE p e).locks = fs.locks := rfl

@[simp] theorem FS.locks_erase (fs : FS) (p : Str) :
    (fs.erase p).locks = fs.locks := rfl

@[simp] theorem FS.locks_flockEnsure (fs : FS) (p : Str) :
    (fs.flockEnsure p).locks = fs.locks := by
  unfold FS.flockEnsure
  split <;> rfl

@[simp] theorem FS.find_setE_self (fs : FS) (p : Str) (e : Entry) :
    (fs.setE p e).find p = some e := findEnt_setEnt_self _ _ _

theorem FS.find_setE_ne (fs : FS) (p q : Str) (e : Entry) (h : q ≠ p) :
    (fs.setE p e).find q = fs.find q := findEnt_setEnt_ne _ _ _ _ h

@[simp] theorem FS.find_erase_self (fs : FS) (p : Str) :
    (fs.erase p).find p = none := findEnt_eraseEnt_self _ _

theorem FS.find_erase_ne (fs : FS) (p q : Str) (h : q ≠ p) :
    (fs.erase p).find q = fs.find q := findEnt_eraseEnt_ne _ _ _ h

theorem FS.setE_setE (fs : FS) (p : Str) (a b : Entry) :
    (fs.setE p a).setE p b = fs.setE p b := by
  cases fs
  simp [FS.setE, setEnt_setEnt]

theorem FS.erase_setE (fs : FS) (p : Str) (e : Entry)
    (h : fs.find p = none) : (fs.setE p e).erase p = fs := by
  cases fs
  simp only [FS.find] at h
  simp [FS.setE, FS.erase, eraseEnt_setEnt _ _ _ h]

theorem FS.flockEnsure_of_find_some (fs : FS) (p : Str) (e : Entry)
    (h : fs.find p = some e) : fs.flockEnsure p = fs := by
  unfold FS.flockEnsure
  rw [h]

theorem FS.find_flockEnsure_ne (fs : FS) (p q : Str) (h : q ≠ p) :
    (fs.flockEnsure p).find q = fs.find q := by
  unfold FS.flockEnsure
  split
  · exact fs.find_setE_ne p q _ h
  · rfl

theorem canLock_true_iff (fs : FS) (p : Str) :
    canLock fs p true = true ↔ fs.locks p = .free := by
  unfold canLock
  cases h : fs.locks p <;> simp

theorem canLock_shared_iff (fs : FS) (p : Str) :
    canLock fs p false = true ↔ fs.locks p ≠ .exclusive := by
  unfold canLock
  cases h : fs.locks p <;> simp

/-- A successful `writeTemp`, spelled out: fresh temp path, free temp lock,
result is the temp file holding the value. -/
theorem writeTemp_ok (tp key : Str) (value : Bytes) (rand : Str) (fs : FS)
    (hfresh : fs.find (tmpPath tp key rand) = none)
    (hlk : fs.locks (tmpPath tp key rand) = .free) :
    writeTemp tp key value rand fs
      = (fs.setE (tmpPath tp key rand) (.file value), .ok (tmpPath tp key rand)) := by
  unfold writeTemp
  rw [hfresh]
  have hcl : canLock (fs.setE (tmpPath tp key rand) (.file [])) (tmpPath tp key rand) true = true := by
    rw [canLock_true_iff]
    simpa using hlk
  simp [hcl, FS.setE_setE]

/-- Lemma: `writeTemp` never touches the locks. -/
theorem writeTemp_locks (tp key : Str) (value : Bytes) (rand : Str) (fs : FS) :
    ((writeTemp tp key value rand fs).1).locks = fs.locks := by
  unfold writeTemp
  split
  · rfl
  · split <;> rfl

/-- Inversion of a successful `writeTemp`: the temp path was fresh, its
lock free, and the post-state holds exactly the temp file with the value. -/
theorem writeTemp_ok_inv (tp key : Str) (value : Bytes) (rand : Str)
    (fs fs1 : FS) (t : Str) (h : writeTemp tp key value rand fs = (fs1, .ok t)) :
    t = tmpPath tp key rand ∧ fs.find (tmpPath tp key rand) = none ∧
      fs.locks (tmpPath tp key rand) = .free ∧
      fs1 = fs.setE (tmpPath tp key rand) (.file value) := by
  unfold writeTemp at h
  split at h
  · simp at h
  next hf =>
    split at h
    next hcl =>
      rw [canLock_true_iff] at hcl
      simp only [Prod.mk.injEq, Except.ok.injEq] at h
      obtain ⟨h1, h2⟩ := h
      rw [FS.setE_setE] at h1
      exact ⟨h2.symm, hf, by simpa using hcl, h1.symm⟩
    next hcl => simp at h

/-- Inversion of a successful `Set`: the key is separator-free, the temp
path was fresh with a free lock, the destination lock was free, and the
post-state is the pre-state with the record set to the value (modulo the
transient temp file and the flock-side `O_CREATE`). -/
theorem set_ok_inv (tp key : Str) (value : Bytes) (rand : Str) (fs fs1 : FS)
    (h : Table.Set tp key value rand fs = (fs1, .ok ())) :
    pathSep ∉ key ∧ fs.find (tmpPath tp key rand) = none ∧
      fs.locks (tmpPath tp key rand) = .free ∧
      fs.locks (recPath tp key) = .free ∧
      fs1 = (((fs.setE (tmpPath tp key rand) (.file value)).flockEnsure
          (recPath tp key)).erase (tmpPath tp key rand)).setE (recPath tp key)
          (.file value) := by
  unfold Table.Set at h
  split at h
  · simp at h
  next hsep =>
    split at h
    next fs2 e hw => simp at h
    next fs2 t hw =>
      obtain ⟨ht, hfresh, htl, hfs2⟩ := writeTemp_ok_inv tp key value rand fs fs2 t hw
      subst ht
      subst hfs2
      split at h
      next hcl =>
        rw [canLock_true_iff] at hcl
        split at h
        · simp at h
        next hother =>
          simp only [Prod.mk.injEq] at h
          exact ⟨hsep, hfresh, htl, by simpa using hcl, h.1.symm⟩
      next hcl => simp at h

/-- C1 — A successful `Set(k, v)` followed by `Get(k)` returns exactly `v`,
whether or not a record for `k` existed before the `Set`; in particular
after `Set(k, v1)` then `Set(k, v2)` (the post-state of the first `Set` is
just another pre-state here), `Get(k)` returns `v2`: the latest successful
write is the current value. -/
theorem c1_set_then_get (tp key : Str) (value : Bytes) (rand : Str) (fs : FS)
    (h : (Table.Set tp key value rand fs).2 = .ok ()) :
    Table.Get tp key (Table.Set tp key value rand fs).1 = .ok value := by
  have hS : Table.Set tp key value rand fs
      = ((Table.Set tp key value rand fs).1, .ok ()) := by
    rw [← h]
  obtain ⟨hsep, hfresh, htl, hfree, hpost⟩ := set_ok_inv tp key value rand fs _ hS
  rw [hpost]
  have hcl2 : canLock ((((fs.setE (tmpPath tp key rand) (.file value)).flockEnsure
      (recPath tp key)).erase (tmpPath tp key rand)).setE (recPath tp key)
      (.file value)) (recPath tp key) false = true := by
    rw [canLock_shared_iff]
    simp [hfree]
  simp [Table.Get, hsep, hcl2]

/-- Witness for C1 at a concrete input: set key `"k"` to `[1, 2]` in the
empty root table and read it back. -/
theorem c1_set_then_get_witness :
    (Table.Set sampTp sampKey sampVal sampRand fsEmpty).2 = .ok () ∧
    Table.Get sampTp sampKey (Table.Set sampTp sampKey sampVal sampRand fsEmpty).1 = .ok sampVal :=
  ⟨rfl, c1_set_then_get sampTp sampKey sampVal sampRand fsEmpty rfl⟩

/-- C4 — `Create` on a key whose record already exists fails with the
AlreadyExists kind and returns the filesystem unchanged, so the existing
record's value is untouched; the hypothesis places no constraint on the
lock state, so the answer is the same whether or not any lock is held —
`Create` does not wait for a lock here. -/
theorem c4_create_existing (tp key : Str) (value : Bytes) (rand : Str)
    (fs : FS) (e : Entry) (hsep : pathSep ∉ key)
    (hex : fs.find (recPath tp key) = some e) :
    Table.Create tp key value rand fs = (fs, .error .exist) := by
  unfold Table.Create
  rw [if_neg hsep, hex]

/-- Witness for C4: a second `Create` on an existing record. -/
theorem c4_create_existing_witness :
    pathSep ∉ sampKey ∧
    Table.Create sampTp sampKey sampVal2 sampRand fsOne = (fsOne, .error .exist) :=
  ⟨by decide,
    c4_create_existing sampTp sampKey sampVal2 sampRand fsOne (.file sampVal)
      (by decide) rfl⟩

/-- C5 — `Update` on a key with no existing record fails with the NotFound
kind and returns the filesystem unchanged: no record file is created. -/
theorem c5_update_missing (tp key : Str) (value : Bytes) (rand : Str)
    (fs : FS) (hsep : pathSep ∉ key)
    (hmiss : fs.find (recPath tp key) = none) :
    Table.Update tp key value rand fs = (fs, .error .notExist) := by
  unfold Table.Update
  rw [if_neg hsep, hmiss]

/-- Witness for C5: update of an absent key in the empty table. -/
theorem c5_update_missing_witness :
    Table.Update sampTp sampKey sampVal sampRand fsEmpty
      = (fsEmpty, .error .notExist) :=
  c5_update_missing sampTp sampKey sampVal sampRand fsEmpty (by decide) rfl

/-- Lemma: deleting an absent record is a success that changes nothing. -/
theorem delete_of_find_none (tp key : Str) (fs : FS) (hsep : pathSep ∉ key)
    (hmiss : fs.find (recPath tp key) = none) :
    Table.Delete tp key fs = (fs, .ok ()) := by
  unfold Table.Delete
  rw [if_neg hsep, hmiss]

/-- Lemma: after any successful `Delete` the record file is gone. -/
theorem delete_ok_find_none (tp key : Str) (fs : FS)
    (h : (Table.Delete tp key fs).2 = .ok ()) :
    ((Table.Delete tp key fs).1).find (recPath tp key) = none := by
  by_cases hsep : pathSep ∈ key
  · have hD : Table.Delete tp key fs = (fs, .error .invalid) := by
      unfold Table.Delete
      rw [if_pos hsep]
    rw [hD] at h
    simp at h
  · rcases hf : fs.find (recPath tp key) with _ | e
    · rw [delete_of_find_none tp key fs hsep hf]
      exact hf
    · cases e with
      | dir =>
        have hD : Table.Delete tp key fs = (fs, .error .invalid) := by
          unfold Table.Delete
          rw [if_neg hsep, hf]
        rw [hD] at h
        simp at h
      | file c =>
        by_cases hcl : canLock fs (recPath tp key) true = true
        · have hD : Table.Delete tp key fs = (fs.erase (recPath tp key), .ok ()) := by
            unfold Table.Delete
            rw [if_neg hsep, hf]
            simp [hcl]
          rw [hD]
          exact FS.find_erase_self fs (recPath tp key)
        · have hD : Table.Delete tp key fs = (fs, .error .timeout) := by
            unfold Table.Delete
            rw [if_neg hsep, hf]
            simp [hcl]
          rw [hD] at h
          simp at h

/-- C6 — Delete is idempotent: `Delete` of an absent record is a success
(not an error) that leaves the state unchanged; after any successful
`Delete(k)`, `Get(k)` fails with NotFound and a second `Delete(k)`
succeeds, leaving the state exactly as the first left it. -/
theorem c6_delete_idempotent (tp key : Str) (fs : FS) (hsep : pathSep ∉ key) :
    (fs.find (recPath tp key) = none → Table.Delete tp key fs = (fs, .ok ())) ∧
    ((Table.Delete tp key fs).2 = .ok () →
      Table.Get tp key (Table.Delete tp key fs).1 = .error .notExist ∧
      Table.Delete tp key (Table.Delete tp key fs).1
        = ((Table.Delete tp key fs).1, .ok ())) := by
  refine ⟨fun hmiss => delete_of_find_none tp key fs hsep hmiss, fun h => ?_⟩
  have hfind := delete_ok_find_none tp key fs h
  constructor
  · unfold Table.Get
    rw [if_neg hsep, hfind]
  · exact delete_of_find_none tp key _ hsep hfind

/-- Witness for C6: delete an absent key, then delete an existing record
twice. -/
theorem c6_delete_idempotent_witness :
    Table.Delete sampTp sampKey fsEmpty = (fsEmpty, .ok ()) ∧
    Table.Get sampTp sampKey (Table.Delete sampTp sampKey fsOne).1
      = .error .notExist ∧
    Table.Delete sampTp sampKey (Table.Delete sampTp sampKey fsOne).1
      = ((Table.Delete sampTp sampKey fsOne).1, .ok ()) :=
  ⟨(c6_delete_idempotent sampTp sampKey fsEmpty (by decide)).1 rfl,
    ((c6_delete_idempotent sampTp sampKey fsOne (by decide)).2 rfl).1,
    ((c6_delete_idempotent sampTp sampKey fsOne (by decide)).2 rfl).2⟩

/-- C2 (amended) — Under an exclusive lock held by another locker on the
record's path (the lock file necessarily exists, since flock creates it),
`Get`, `Set`, `Update` and `Delete` on that key fail with the LockTimeout
kind, while `Create` fails with the AlreadyExists kind because its
`O_EXCL` open sees the lock file before any lock is attempted; in every
case the returned filesystem equals the pre-state, so no temporary write
file and no partial destination file remains. -/
theorem c2_locked_excl (tp key : Str) (value : Bytes) (rand : Str) (fs : FS)
    (c : Bytes) (hsep : pathSep ∉ key)
    (hex : fs.find (recPath tp key) = some (.file c))
    (hlk : fs.locks (recPath tp key) = .exclusive)
    (hfresh : fs.find (tmpPath tp key rand) = none)
    (htl : fs.locks (tmpPath tp key rand) = .free) :
    Table.Get tp key fs = .error .timeout ∧
    Table.Set tp key value rand fs = (fs, .error .timeout) ∧
    Table.Create tp key value rand fs = (fs, .error .exist) ∧
    Table.Update tp key value rand fs = (fs, .error .timeout) ∧
    Table.Delete tp key fs = (fs, .error .timeout) := by
  have hne : recPath tp key ≠ tmpPath tp key rand := by
    intro hEq
    rw [hEq, hfresh] at hex
    cases hex
  have hclD : canLock fs (recPath tp key) true = false := by
    unfold canLock
    rw [hlk]
  have hclS : canLock fs (recPath tp key) false = false := by
    unfold canLock
    rw [hlk]
  have hens : (fs.setE (tmpPath tp key rand) (.file value)).flockEnsure
      (recPath tp key) = fs.setE (tmpPath tp key rand) (.file value) := by
    apply FS.flockEnsure_of_find_some _ _ (.file c)
    rw [FS.find_setE_ne _ _ _ _ hne]
    exact hex
  have hcl2 : canLock (fs.setE (tmpPath tp key rand) (.file value))
      (recPath tp key) true = false := by
    unfold canLock
    rw [FS.locks_setE, hlk]
  refine ⟨?_, ?_, ?_, ?_, ?_⟩
  · unfold Table.Get
    rw [if_neg hsep, hex]
    simp [hclS]
  · unfold Table.Set
    rw [if_neg hsep, writeTemp_ok tp key value rand fs hfresh htl]
    simp only [hens, hcl2]
    simp [FS.erase_setE fs (tmpPath tp key rand) (.file value) hfresh]
  · unfold Table.Create
    rw [if_neg hsep, hex]
  · unfold Table.Update
    rw [if_neg hsep, hex, writeTemp_ok tp key value rand fs hfresh htl]
    simp only [hens, hcl2]
    simp [FS.erase_setE fs (tmpPath tp key rand) (.file value) hfresh]
  · unfold Table.Delete
    rw [if_neg hsep, hex]
    simp [hclD]

/-- C2 counterexample — with the record present and its path exclusively
locked by another locker, `Create` answers AlreadyExists, which is a
different kind from LockTimeout: the claim that all five keyed operations
fail with the LockTimeout kind is false. -/
theorem c2_counterexample :
    (Table.Create sampTp sampKey sampVal sampRand fsLocked).2 = .error .exist ∧
    Err.exist ≠ Err.timeout :=
  ⟨rfl, by decide⟩

/-- Witness for the amended C2 at a concrete locked record. -/
theorem c2_locked_excl_witness :
    Table.Get sampTp sampKey fsLocked = .error .timeout ∧
    Table.Set sampTp sampKey sampVal sampRand fsLocked
      = (fsLocked, .error .timeout) ∧
    Table.Create sampTp sampKey sampVal sampRand fsLocked
      = (fsLocked, .error .exist) ∧
    Table.Update sampTp sampKey sampVal sampRand fsLocked
      = (fsLocked, .error .timeout) ∧
    Table.Delete sampTp sampKey fsLocked = (fsLocked, .error .timeout) :=
  c2_locked_excl sampTp sampKey sampVal sampRand fsLocked sampVal
    (by decide) rfl rfl rfl rfl

/-- C3 (amended) — A key containing the path separator is rejected with
the InvalidKey kind uniformly by all five keyed operations, each returning
the filesystem unchanged.  When the key's record path is a directory, only
`Delete` answers InvalidKey: `Get` and `Update` fail with the EISDIR IO
error, `Create` with AlreadyExists, and `Set` with the EISDIR rename
error (cleaning up its temporary file), each leaving the state
unchanged. -/
theorem c3_keys (tp key : Str) (value : Bytes) (rand : Str) (fs : FS) :
    (pathSep ∈ key →
      Table.Get tp key fs = .error .invalid ∧
      Table.Set tp key value rand fs = (fs, .error .invalid) ∧
      Table.Create tp key value rand fs = (fs, .error .invalid) ∧
      Table.Update tp key value rand fs = (fs, .error .invalid) ∧
      Table.Delete tp key fs = (fs, .error .invalid)) ∧
    (pathSep ∉ key → fs.find (recPath tp key) = some .dir →
      fs.locks (recPath tp key) = .free →
      fs.find (tmpPath tp key rand) = none →
      fs.locks (tmpPath tp key rand) = .free →
      Table.Get tp key fs = .error .eisdir ∧
      Table.Set tp key value rand fs = (fs, .error .eisdir) ∧
      Table.Create tp key value rand fs = (fs, .error .exist) ∧
      Table.Update tp key value rand fs = (fs, .error .eisdir) ∧
      Table.Delete tp key fs = (fs, .error .invalid)) := by
  constructor
  · intro hsep
    have hG : Table.Get tp key fs = .error .invalid := by
      unfold Table.Get
      rw [if_pos hsep]
    have hS : Table.Set tp key value rand fs = (fs, .error .invalid) := by
      unfold Table.Set
      rw [if_pos hsep]
    have hC : Table.Create tp key value rand fs = (fs, .error .invalid) := by
      unfold Table.Create
      rw [if_pos hsep]
    have hU : Table.Update tp key value rand fs = (fs, .error .invalid) := by
      unfold Table.Update
      rw [if_pos hsep]
    have hD : Table.Delete tp key fs = (fs, .error .invalid) := by
      unfold Table.Delete
      rw [if_pos hsep]
    exact ⟨hG, hS, hC, hU, hD⟩
  · intro hsep hdir hfree hfresh htl
    have hne : recPath tp key ≠ tmpPath tp key rand := by
      intro hEq
      rw [hEq, hfresh] at hdir
      cases hdir
    have hens : (fs.setE (tmpPath tp key rand) (.file value)).flockEnsure
        (recPath tp key) = fs.setE (tmpPath tp key rand) (.file value) := by
      apply FS.flockEnsure_of_find_some _ _ .dir
      rw [FS.find_setE_ne _ _ _ _ hne]
      exact hdir
    have hcl2 : canLock (fs.setE (tmpPath tp key rand) (.file value))
        (recPath tp key) true = true := by
      unfold canLock
      rw [FS.locks_setE, hfree]
    have hfd : (fs.setE (tmpPath tp key rand) (.file value)).find
        (recPath tp key) = some .dir := by
      rw [FS.find_setE_ne _ _ _ _ hne]
      exact hdir
    refine ⟨?_, ?_, ?_, ?_, ?_⟩
    · unfold Table.Get
      rw [if_neg hsep, hdir]
      have hclS : canLock fs (recPath tp key) false = true := by
        unfold canLock
        rw [hfree]
      simp [hclS]
    · unfold Table.Set
      rw [if_neg hsep, writeTemp_ok tp key value rand fs hfresh htl]
      simp only [hens, hcl2, hfd]
      simp [FS.erase_setE fs (tmpPath tp key rand) (.file value) hfresh]
    · unfold Table.Create
      rw [if_neg hsep, hdir]
    · unfold Table.Update
      rw [if_neg hsep, hdir]
    · unfold Table.Delete
      rw [if_neg hsep, hdir]

/-- C3 counterexample — `Get` on a key whose path is a directory answers
the EISDIR IO error, not InvalidKey: the claim that keyed operations
targeting a directory fail with the InvalidKey kind is false. -/
theorem c3_counterexample :
    Table.Get sampTp sampKey fsDir = .error .eisdir ∧
    Err.eisdir ≠ Err.invalid :=
  ⟨rfl, by decide⟩

/-- Witness for the amended C3: a separator key on the empty table and a
directory-valued key. -/
theorem c3_keys_witness :
    Table.Set sampTp sampBad sampVal sampRand fsEmpty
      = (fsEmpty, .error .invalid) ∧
    Table.Update sampTp sampKey sampVal sampRand fsDir
      = (fsDir, .error .eisdir) ∧
    Table.Delete sampTp sampKey fsDir = (fsDir, .error .invalid) :=
  ⟨((c3_keys sampTp sampBad sampVal sampRand fsEmpty).1 (by decide)).2.1,
    ((c3_keys sampTp sampKey sampVal sampRand fsDir).2 (by decide) rfl rfl
      rfl rfl).2.2.2.1,
    ((c3_keys sampTp sampKey sampVal sampRand fsDir).2 (by decide) rfl rfl
      rfl rfl).2.2.2.2⟩

/-- Helper: `takeWhile` keeps a list all of whose elements satisfy the
predicate. -/
theorem tw_all {α : Type} (p : α → Bool) (l : List α)
    (h : ∀ x ∈ l, p x = true) : l.takeWhile p = l := by
  induction l with
  | nil => rfl
  | cons a t ih =>
    rw [List.takeWhile_cons, h a (List.mem_cons_self a t)]
    simp [ih (fun x hx => h x (List.mem_cons_of_mem a hx))]

/-- Helper: `takeWhile` over a split list stops exactly at the first
failing element. -/
theorem tw_append_cons {α : Type} (p : α → Bool) (l : List α) (c : α)
    (r : List α) (hl : ∀ x ∈ l, p x = true) (hc : p c = false) :
    (l ++ c :: r).takeWhile p = l := by
  induction l with
  | nil => simp [List.takeWhile_cons, hc]
  | cons a t ih =>
    rw [List.cons_append, List.takeWhile_cons, hl a (List.mem_cons_self a t)]
    simp [ih (fun x hx => hl x (List.mem_cons_of_mem a hx))]

/-- Helper: `dropWhile` over a split list drops exactly the leading
satisfying run. -/
theorem dw_append_cons {α : Type} (p : α → Bool) (l : List α) (c : α)
    (r : List α) (hl : ∀ x ∈ l, p x = true) (hc : p c = false) :
    (l ++ c :: r).dropWhile p = c :: r := by
  induction l with
  | nil => simp [List.dropWhile_cons, hc]
  | cons a t ih =>
    rw [List.cons_append, List.dropWhile_cons, hl a (List.mem_cons_self a t)]
    simp [ih (fun x hx => hl x (List.mem_cons_of_mem a hx))]

/-- Helper: a separator-free string reversed satisfies the not-a-separator
test everywhere. -/
theorem bne_sep_all (n : Str) (hn : pathSep ∉ n) :
    ∀ x ∈ n.reverse, (x != pathSep) = true := by
  intro x hx
  rw [List.mem_reverse] at hx
  simp only [bne_iff_ne, ne_eq]
  intro heq
  subst heq
  exact hn hx

/-- Joining a directory with a separator-free name is injective in both
arguments. -/
theorem join_inj (t n t2 m : Str) (hn : pathSep ∉ n) (hm : pathSep ∉ m)
    (h : joinPath t n = joinPath t2 m) : t = t2 ∧ n = m := by
  unfold joinPath at h
  have hrev := congrArg List.reverse h
  simp only [List.reverse_append, List.reverse_cons, List.append_assoc,
    List.singleton_append] at hrev
  have htk := congrArg (List.takeWhile (fun c => c != pathSep)) hrev
  rw [tw_append_cons _ _ _ _ (bne_sep_all n hn) (by simp),
    tw_append_cons _ _ _ _ (bne_sep_all m hm) (by simp)] at htk
  have hdr := congrArg (List.dropWhile (fun c => c != pathSep)) hrev
  rw [dw_append_cons _ _ _ _ (bne_sep_all n hn) (by simp),
    dw_append_cons _ _ _ _ (bne_sep_all m hm) (by simp)] at hdr
  constructor
  · have := List.tail_eq_of_cons_eq hdr
    exact List.reverse_injective this
  · exact List.reverse_injective htk

/-- Record paths collide only for the same table path and the same key. -/
theorem recPath_inj (tp key tp2 k2 : Str) (hk : pathSep ∉ key)
    (hk2 : pathSep ∉ k2) (h : recPath tp2 k2 = recPath tp key) :
    tp2 = tp ∧ k2 = key := by
  unfold recPath at h
  have hke : pathSep ∉ (key ++ recExt) := by
    intro hmem
    rcases List.mem_append.mp hmem with h1 | h1
    · exact hk h1
    · exact absurd h1 (by decide)
  have hk2e : pathSep ∉ (k2 ++ recExt) := by
    intro hmem
    rcases List.mem_append.mp hmem with h1 | h1
    · exact hk2 h1
    · exact absurd h1 (by decide)
  obtain ⟨ht, hn⟩ := join_inj tp2 (k2 ++ recExt) tp (key ++ recExt) hk2e hke h
  exact ⟨ht, List.append_cancel_right hn⟩

/-- Inversion of a successful `Create`: the key is separator-free, the
destination was absent, the temp path was fresh, and the post-state is
spelled out. -/
theorem create_ok_inv (tp key : Str) (value : Bytes) (rand : Str)
    (fs fs2 : FS) (h : Table.Create tp key value rand fs = (fs2, .ok ())) :
    pathSep ∉ key ∧ fs.find (recPath tp key) = none ∧
      fs.find (tmpPath tp key rand) = none ∧
      fs2 = (((fs.setE (recPath tp key) (.file [])).setE (tmpPath tp key rand)
          (.file value)).erase (tmpPath tp key rand)).setE (recPath tp key)
          (.file value) := by
  unfold Table.Create at h
  split at h
  · simp at h
  next hsep =>
    split at h
    next hex => simp at h
    next hmiss =>
      split at h
      next hcl =>
        split at h
        next fs3 e hw => simp at h
        next fs3 t hw =>
          obtain ⟨ht, hfresh1, htl1, hfs3⟩ :=
            writeTemp_ok_inv tp key value rand _ fs3 t hw
          subst ht
          subst hfs3
          have hnedt : tmpPath tp key rand ≠ recPath tp key := by
            intro hEq
            rw [hEq, FS.find_setE_self] at hfresh1
            cases hfresh1
          have hfresh : fs.find (tmpPath tp key rand) = none := by
            rw [FS.find_setE_ne _ _ _ _ hnedt] at hfresh1
            exact hfresh1
          simp only [Prod.mk.injEq] at h
          exact ⟨hsep, hmiss, hfresh, h.1.symm⟩
      next hcl => simp at h

/-- Inversion of a successful `Update`: the key is separator-free, the
destination held a file, the temp path was fresh, and the post-state is
spelled out. -/
theorem update_ok_inv (tp key : Str) (value : Bytes) (rand : Str)
    (fs fs2 : FS) (h : Table.Update tp key value rand fs = (fs2, .ok ())) :
    pathSep ∉ key ∧ (∃ c, fs.find (recPath tp key) = some (.file c)) ∧
      fs.find (tmpPath tp key rand) = none ∧
      fs2 = (((fs.setE (tmpPath tp key rand) (.file value)).flockEnsure
          (recPath tp key)).erase (tmpPath tp key rand)).setE (recPath tp key)
          (.file value) := by
  unfold Table.Update at h
  split at h
  · simp at h
  next hsep =>
    split at h
    next hmiss => simp at h
    next hdir => simp at h
    next c hex =>
      split at h
      next fs3 e hw => simp at h
      next fs3 t hw =>
        obtain ⟨ht, hfresh, htl, hfs3⟩ :=
          writeTemp_ok_inv tp key value rand fs fs3 t hw
        subst ht
        subst hfs3
        split at h
        next hcl =>
          simp only [Prod.mk.injEq] at h
          exact ⟨hsep, ⟨c, hex⟩, hfresh, h.1.symm⟩
        next hcl => simp at h

/-- Lemma: a successful `Delete` changes no path other than the record's
own. -/
theorem delete_ok_frame (tp key : Str) (fs : FS) (q : Str)
    (hq : q ≠ recPath tp key) (h : (Table.Delete tp key fs).2 = .ok ()) :
    ((Table.Delete tp key fs).1).find q = fs.find q := by
  by_cases hsep : pathSep ∈ key
  · have hD : Table.Delete tp key fs = (fs, .error .invalid) := by
      unfold Table.Delete
      rw [if_pos hsep]
    rw [hD] at h
    simp at h
  · rcases hf : fs.find (recPath tp key) with _ | e
    · rw [delete_of_find_none tp key fs hsep hf]
    · cases e with
      | dir =>
        have hD : Table.Delete tp key fs = (fs, .error .invalid) := by
          unfold Table.Delete
          rw [if_neg hsep, hf]
        rw [hD] at h
        simp at h
      | file c =>
        by_cases hcl : canLock fs (recPath tp key) true = true
        · have hD : Table.Delete tp key fs
              = (fs.erase (recPath tp key), .ok ()) := by
            unfold Table.Delete
            rw [if_neg hsep, hf]
            simp [hcl]
          rw [hD]
          exact FS.find_erase_ne fs (recPath tp key) q hq
        · have hD : Table.Delete tp key fs = (fs, .error .timeout) := by
            unfold Table.Delete
            rw [if_neg hsep, hf]
            simp [hcl]
          rw [hD] at h
          simp at h

/-- C9 — Every successful `Set`, `Create`, `Update` or `Delete` for key
`k` changes at most the record file of `k` in its own table: the entry at
every other path is exactly what it was before, and the record path of any
other key of the same table, or of any key in any other table, is a
different path. -/
theorem c9_frame (tp key : Str) (value : Bytes) (rand : Str) (fs : FS) :
    (∀ q, q ≠ recPath tp key →
      ((Table.Set tp key value rand fs).2 = .ok () →
        ((Table.Set tp key value rand fs).1).find q = fs.find q) ∧
      ((Table.Create tp key value rand fs).2 = .ok () →
        ((Table.Create tp key value rand fs).1).find q = fs.find q) ∧
      ((Table.Update tp key value rand fs).2 = .ok () →
        ((Table.Update tp key value rand fs).1).find q = fs.find q) ∧
      ((Table.Delete tp key fs).2 = .ok () →
        ((Table.Delete tp key fs).1).find q = fs.find q)) ∧
    (∀ tp2 k2, pathSep ∉ key → pathSep ∉ k2 →
      recPath tp2 k2 = recPath tp key → tp2 = tp ∧ k2 = key) := by
  constructor
  · intro q hq
    refine ⟨?_, ?_, ?_, fun h => delete_ok_frame tp key fs q hq h⟩
    · intro h
      have hS : Table.Set tp key value rand fs
          = ((Table.Set tp key value rand fs).1, .ok ()) := by
        rw [← h]
      obtain ⟨hsep, hfresh, htl, hfree, hpost⟩ :=
        set_ok_inv tp key value rand fs _ hS
      rw [hpost]
      by_cases hqt : q = tmpPath tp key rand
      · subst hqt
        rw [FS.find_setE_ne _ _ _ _ hq, FS.find_erase_self]
        exact hfresh.symm
      · rw [FS.find_setE_ne _ _ _ _ hq, FS.find_erase_ne _ _ _ hqt,
          FS.find_flockEnsure_ne _ _ _ hq, FS.find_setE_ne _ _ _ _ hqt]
    · intro h
      have hC : Table.Create tp key value rand fs
          = ((Table.Create tp key value rand fs).1, .ok ()) := by
        rw [← h]
      obtain ⟨hsep, hmiss, hfresh, hpost⟩ :=
        create_ok_inv tp key value rand fs _ hC
      rw [hpost]
      by_cases hqt : q = tmpPath tp key rand
      · subst hqt
        rw [FS.find_setE_ne _ _ _ _ hq, FS.find_erase_self]
        exact hfresh.symm
      · rw [FS.find_setE_ne _ _ _ _ hq, FS.find_erase_ne _ _ _ hqt,
          FS.find_setE_ne _ _ _ _ hqt, FS.find_setE_ne _ _ _ _ hq]
    · intro h
      have hU : Table.Update tp key value rand fs
          = ((Table.Update tp key value rand fs).1, .ok ()) := by
        rw [← h]
      obtain ⟨hsep, hex, hfresh, hpost⟩ :=
        update_ok_inv tp key value rand fs _ hU
      rw [hpost]
      by_cases hqt : q = tmpPath tp key rand
      · subst hqt
        rw [FS.find_setE_ne _ _ _ _ hq, FS.find_erase_self]
        exact hfresh.symm
      · rw [FS.find_setE_ne _ _ _ _ hq, FS.find_erase_ne _ _ _ hqt,
          FS.find_flockEnsure_ne _ _ _ hq, FS.find_setE_ne _ _ _ _ hqt]
  · intro tp2 k2 hk hk2 h
    exact recPath_inj tp key tp2 k2 hk hk2 h

/-- Witness for C9: a successful `Set` of key `"k"` leaves key `"h"`'s
record untouched, and distinct keys give distinct record paths. -/
theorem c9_frame_witness :
    ((Table.Set sampTp sampKey sampVal sampRand fsTwo).1).find
        (recPath sampTp sampKey2)
      = fsTwo.find (recPath sampTp sampKey2) ∧
    (sampTp = sampTp ∧ sampKey2 = sampKey2) :=
  ⟨((c9_frame sampTp sampKey sampVal sampRand fsTwo).1
      (recPath sampTp sampKey2) (by decide)).1 rfl,
    (c9_frame sampTp sampKey2 sampVal sampRand fsTwo).2 sampTp sampKey2
      (by decide) (by decide) rfl⟩

/-- Helper: members of a `takeWhile` satisfy the predicate. -/
theorem tw_mem {α : Type} (p : α → Bool) (l : List α) (x : α)
    (h : x ∈ l.takeWhile p) : p x = true := by
  induction l with
  | nil => simp [List.takeWhile] at h
  | cons a t ih =>
    rw [List.takeWhile_cons] at h
    by_cases hp : p a = true
    · simp only [hp, if_true] at h
      rcases List.mem_cons.mp h with h1 | h1
      · rwa [h1]
      · exact ih h1
    · simp [hp] at h

/-- Helper: the head surviving a `dropWhile` fails the predicate. -/
theorem dw_head {α : Type} (p : α → Bool) (l : List α) (hd : α)
    (tl : List α) (h : l.dropWhile p = hd :: tl) : p hd = false := by
  induction l with
  | nil => simp [List.dropWhile] at h
  | cons a t ih =>
    rw [List.dropWhile_cons] at h
    cases hpa : p a with
    | true =>
      rw [hpa] at h
      simp at h
      exact ih h
    | false =>
      rw [hpa] at h
      simp at h
      rw [← h.1]
      exact hpa

/-- Computation rule for `extOf`: appending a dotted, dot-free,
separator-free tail to a separator-free stem makes that tail the
extension. -/
theorem extOf_append_dotted (s cs : Str) (hs : pathSep ∉ s)
    (hcs : pathSep ∉ cs) (hdot : '.' ∉ cs) :
    extOf (s ++ '.' :: cs) = '.' :: cs := by
  have hrev : (s ++ '.' :: cs).reverse = cs.reverse ++ '.' :: s.reverse := by
    simp
  have hall : ∀ x ∈ cs.reverse ++ '.' :: s.reverse, (x != pathSep) = true := by
    intro x hx
    simp only [bne_iff_ne, ne_eq]
    intro heq
    subst heq
    rcases List.mem_append.mp hx with h1 | h1
    · exact hcs (List.mem_reverse.mp h1)
    · rcases List.mem_cons.mp h1 with h2 | h2
      · exact absurd h2 (by decide)
      · exact hs (List.mem_reverse.mp h2)
  have hdots : ∀ x ∈ cs.reverse, (x != '.') = true := by
    intro x hx
    simp only [bne_iff_ne, ne_eq]
    intro heq
    subst heq
    exact hdot (List.mem_reverse.mp hx)
  unfold extOf
  rw [hrev, tw_all _ _ hall, tw_append_cons _ _ _ _ hdots (by simp)]
  have hlen : cs.reverse.length ≠ (cs.reverse ++ '.' :: s.reverse).length := by
    simp
  rw [if_neg hlen]
  simp

/-- Pattern splitting for a star-free TempFile pattern keeps the whole
pattern as prefix. -/
theorem patSplit_no_star (pattern : Str) (h : ∀ x ∈ pattern, x ≠ '*') :
    patSplit pattern = (pattern, []) := by
  have htw : pattern.reverse.takeWhile (fun c => c != '*') = pattern.reverse := by
    apply tw_all
    intro x hx
    simp only [bne_iff_ne, ne_eq]
    exact h x (List.mem_reverse.mp hx)
  unfold patSplit
  rw [htw]
  simp

/-- For a star-free key the temp name is the TempFile pattern with the
random string appended. -/
theorem tempName_no_star (key rand : Str) (hstar : '*' ∉ key) :
    tempName key rand = key ++ recExt ++ rand := by
  unfold tempName
  rw [patSplit_no_star (key ++ recExt) ?hp]
  · simp
  case hp =>
    intro x hx heq
    subst heq
    rcases List.mem_append.mp hx with h1 | h1
    · exact hstar h1
    · exact absurd h1 (by decide)

/-- C10 (amended) — For every separator-free key not containing an
asterisk and every non-empty all-digit random string, the temp file's name
is the key plus the record extension plus the random string, and its
extension differs from the record extension, so the record filter used by
`ForEach` (extension equals `recExt`, not a directory) never selects a
temp file.  (Keys containing an asterisk are excluded: Go 1.11+
`ioutil.TempFile` substitutes the random string for the pattern's last
asterisk, defeating both the naming scheme and the extension guarantee —
see the counterexample.) -/
theorem c10_temp_names (key rand : Str) (hsep : pathSep ∉ key)
    (hstar : '*' ∉ key) (hrand : rand ≠ [])
    (hd : ∀ c ∈ rand, c.isDigit = true) :
    tempName key rand = key ++ recExt ++ rand ∧
    extOf (tempName key rand) ≠ recExt ∧
    ∀ e : Entry, ¬(extOf (tempName key rand) = recExt ∧ e.isDir = false) := by
  have hname := tempName_no_star key rand hstar
  have hcssep : pathSep ∉ ('k' :: 'v' :: rand) := by
    intro hmem
    rcases List.mem_cons.mp hmem with h1 | h1
    · exact absurd h1 (by decide)
    · rcases List.mem_cons.mp h1 with h2 | h2
      · exact absurd h2 (by decide)
      · exact absurd (hd pathSep h2) (by decide)
  have hcsdot : '.' ∉ ('k' :: 'v' :: rand) := by
    intro hmem
    rcases List.mem_cons.mp hmem with h1 | h1
    · exact absurd h1 (by decide)
    · rcases List.mem_cons.mp h1 with h2 | h2
      · exact absurd h2 (by decide)
      · exact absurd (hd '.' h2) (by decide)
  have hext : extOf (tempName key rand) = '.' :: 'k' :: 'v' :: rand := by
    rw [hname]
    have hrsplit : key ++ recExt ++ rand = key ++ '.' :: ('k' :: 'v' :: rand) := by
      simp [recExt]
    rw [hrsplit, extOf_append_dotted key ('k' :: 'v' :: rand) hsep hcssep hcsdot]
  have hne : extOf (tempName key rand) ≠ recExt := by
    rw [hext]
    simpa [recExt] using hrand
  exact ⟨hname, hne, fun e hc => hne hc.1⟩

/-- C10 counterexample — for the key `"a*"` and random string `"1"`,
ioutil.TempFile substitutes the random string for the asterisk: the temp
name is `"a1.kv"`, whose extension is exactly the record extension, and it
is not the key plus extension plus random suffix. -/
theorem c10_counterexample :
    extOf (tempName ['a', '*'] ['1']) = recExt ∧
    tempName ['a', '*'] ['1'] ≠ ['a', '*'] ++ recExt ++ ['1'] := by
  constructor
  · rfl
  · decide

/-- Witness for the amended C10 at the sample key and random string. -/
theorem c10_temp_names_witness :
    tempName sampKey sampRand = sampKey ++ recExt ++ sampRand ∧
    extOf (tempName sampKey sampRand) ≠ recExt ∧
    ∀ e : Entry, ¬(extOf (tempName sampKey sampRand) = recExt ∧ e.isDir = false) :=
  c10_temp_names sampKey sampRand (by decide) (by decide) (by decide)
    (by decide)

/-- Characterization of `childName`: it answers exactly the separator-free
name joined under the directory. -/
theorem childName_eq_some (tp p n : Str) :
    childName tp p = some n ↔ p = joinPath tp n ∧ pathSep ∉ n := by
  unfold childName
  constructor
  · intro h
    split at h
    next hcond =>
      obtain ⟨hpre, hrest⟩ := hcond
      obtain ⟨rest, hr⟩ := List.isPrefixOf_iff_prefix.mp hpre
      have hdrop : p.drop (tp.length + 1) = rest := by
        rw [← hr]
        have hlen : (tp ++ [pathSep]).length = tp.length + 1 := by simp
        rw [← hlen, List.drop_left]
      cases h
      constructor
      · rw [hdrop, ← hr]
        unfold joinPath
        rw [List.append_assoc, List.singleton_append]
      · rw [hdrop] at hrest ⊢
        exact hrest
    next hcond => cases h
  · intro ⟨hp, hn⟩
    have hpre : (tp ++ [pathSep]).isPrefixOf p = true := by
      rw [List.isPrefixOf_iff_prefix, hp]
      refine ⟨n, ?_⟩
      unfold joinPath
      simp
    have hdrop : p.drop (tp.length + 1) = n := by
      rw [hp]
      unfold joinPath
      have hjoin : tp ++ pathSep :: n = (tp ++ [pathSep]) ++ n := by
        rw [List.append_assoc, List.singleton_append]
      rw [hjoin]
      have hlen : (tp ++ [pathSep]).length = tp.length + 1 := by simp
      rw [← hlen, List.drop_left]
    rw [if_pos ⟨hpre, by rwa [hdrop]⟩, hdrop]

/-- Membership in the directory listing, path side. -/
theorem dirList_mem (fs : FS) (tp n : Str) (e : Entry) :
    (n, e) ∈ dirList fs tp ↔
      (joinPath tp n, e) ∈ fs.entries ∧ pathSep ∉ n := by
  unfold dirList
  rw [List.mem_filterMap]
  constructor
  · intro ⟨pe, hpe, hf⟩
    rcases hcn : childName tp pe.1 with _ | m
    · rw [hcn] at hf
      cases hf
    · rw [hcn] at hf
      have hf2 : some (m, pe.2) = some (n, e) := hf
      cases hf2
      obtain ⟨hp, hn⟩ := (childName_eq_some tp pe.1 n).mp hcn
      refine ⟨?_, hn⟩
      rw [← hp]
      exact hpe
  · intro ⟨hin, hn⟩
    refine ⟨(joinPath tp n, e), hin, ?_⟩
    rw [(childName_eq_some tp (joinPath tp n) n).mpr ⟨rfl, hn⟩]
    rfl

/-- With unique paths, membership determines the `findEnt` answer. -/
theorem findEnt_of_mem (l : List (Str × Entry)) (p : Str) (e : Entry)
    (hnd : (l.map Prod.fst).Nodup) (hmem : (p, e) ∈ l) :
    findEnt l p = some e := by
  induction l with
  | nil => cases hmem
  | cons hd rest ih =>
    obtain ⟨q, d⟩ := hd
    rcases List.mem_cons.mp hmem with h1 | h1
    · cases h1
      simp [findEnt]
    · have hq : q ≠ p := by
        intro heq
        subst heq
        have : q ∈ rest.map Prod.fst := List.mem_map.mpr ⟨(q, e), h1, rfl⟩
        exact (List.nodup_cons.mp hnd).1 this
      rw [findEnt, if_neg hq]
      exact ih (List.nodup_cons.mp hnd).2 h1

/-- Inversion of `extOf`: a dotted extension splits the name at its last
dot, and `trimSuffix` recovers the stem. -/
theorem extOf_eq_dotted (n cs : Str) (hsep : pathSep ∉ n)
    (h : extOf n = '.' :: cs) :
    ∃ s, n = s ++ '.' :: cs ∧ trimSuffix n ('.' :: cs) = s := by
  unfold extOf at h
  rw [tw_all _ _ (bne_sep_all n hsep)] at h
  by_cases hl : (n.reverse.takeWhile (fun c => c != '.')).length = n.reverse.length
  · rw [if_pos hl] at h
    cases h
  · rw [if_neg hl] at h
    injection h with h1 h2
    have hsplit := @List.takeWhile_append_dropWhile Char (fun c => c != '.') n.reverse
    rcases hdw : n.reverse.dropWhile (fun c => c != '.') with _ | ⟨hd, tl⟩
    · rw [hdw, List.append_nil] at hsplit
      exact absurd (congrArg List.length hsplit) hl
    · rw [hdw] at hsplit
      have hhd : (hd != '.') = false :=
        dw_head (fun c => c != '.') n.reverse hd tl hdw
      have hhd2 : hd = '.' := by
        have hbe : (hd == '.') = true := by
          cases hbe2 : hd == '.'
          · rw [bne, hbe2] at hhd
            cases hhd
          · rfl
        exact eq_of_beq hbe
      subst hhd2
      have hn : n = tl.reverse ++ '.' :: cs := by
        have hrev := congrArg List.reverse hsplit
        rw [List.reverse_reverse] at hrev
        rw [← hrev]
        simp [h2]
      refine ⟨tl.reverse, hn, ?_⟩
      have hsuffix : ('.' :: cs).isSuffixOf n = true := by
        rw [List.isSuffixOf_iff_suffix]
        exact ⟨tl.reverse, hn.symm⟩
      unfold trimSuffix
      rw [if_pos hsuffix]
      have hlen2 : n.length - ('.' :: cs).length = tl.reverse.length := by
        rw [hn]
        simp
      rw [hlen2, hn]
      exact List.take_left tl.reverse ('.' :: cs)

/-- Evaluating `Get` on a listed, unlocked record file returns its
content. -/
theorem get_of_listed (tp n : Str) (c : Bytes) (fs : FS)
    (hfind : fs.find (joinPath tp n) = some (.file c)) (hsep : pathSep ∉ n)
    (hext : extOf n = recExt)
    (hnl : fs.locks (joinPath tp n) ≠ .exclusive) :
    Table.Get tp (trimSuffix n recExt) fs = .ok c := by
  obtain ⟨s, hn, htrim⟩ :=
    extOf_eq_dotted n ['k', 'v'] hsep (by simpa [recExt] using hext)
  have htrim2 : trimSuffix n recExt = s := htrim
  have hkeysep : pathSep ∉ trimSuffix n recExt := by
    rw [htrim2]
    intro hx
    apply hsep
    rw [hn]
    exact List.mem_append.mpr (Or.inl hx)
  have hrec : recPath tp (trimSuffix n recExt) = joinPath tp n := by
    unfold recPath
    rw [htrim2]
    have : s ++ recExt = n := hn.symm
    rw [this]
  unfold Table.Get
  rw [if_neg hkeysep, hrec, hfind]
  have hcl : canLock fs (joinPath tp n) false = true := by
    unfold canLock
    cases hlk : fs.locks (joinPath tp n) with
    | free => rfl
    | shared => rfl
    | exclusive => exact absurd hlk hnl
  simp [hcl]

/-- Listing coherence under well-formedness: each listed child is the
unique entry at its joined path, with a separator-free name. -/
theorem dirList_coh (fs : FS) (tp : Str) (hwf : fs.wf) :
    ∀ ne ∈ dirList fs tp,
      fs.find (joinPath tp ne.1) = some ne.2 ∧ pathSep ∉ ne.1 := by
  intro ne hmem
  obtain ⟨n, e⟩ := ne
  obtain ⟨hin, hnsep⟩ := (dirList_mem fs tp n e).mp hmem
  exact ⟨findEnt_of_mem fs.entries _ _ hwf hin, hnsep⟩

/-- Over a coherent, unlocked listing, the record selection with `Get`
results is the record selection with stored contents, tagged ok. -/
theorem recSel_eq_records (tp : Str) (fs : FS) (L : List (Str × Entry))
    (hcoh : ∀ ne ∈ L,
      fs.find (joinPath tp ne.1) = some ne.2 ∧ pathSep ∉ ne.1)
    (hnl : ∀ ne ∈ L, fs.locks (joinPath tp ne.1) ≠ .exclusive) :
    recSelRes tp fs L
      = (L.filterMap (fun ne =>
          match ne.2 with
          | .file c =>
            if extOf ne.1 = recExt then some (trimSuffix ne.1 recExt, c)
            else none
          | .dir => none)).map (fun kv => (kv.1, Except.ok kv.2)) := by
  induction L with
  | nil => rfl
  | cons ne rest ih =>
    obtain ⟨n, e⟩ := ne
    have ihr := ih (fun x hx => hcoh x (List.mem_cons_of_mem _ hx))
      (fun x hx => hnl x (List.mem_cons_of_mem _ hx))
    obtain ⟨hfind, hnsep⟩ := hcoh (n, e) (List.mem_cons_self _ _)
    have hlk := hnl (n, e) (List.mem_cons_self _ _)
    cases e with
    | dir =>
      simp only [recSelRes, List.filterMap_cons] at ihr ⊢
      simp [Entry.isDir]
      exact ihr
    | file c =>
      by_cases hext : extOf n = recExt
      · have hget := get_of_listed tp n c fs hfind hnsep hext hlk
        simp only [recSelRes, List.filterMap_cons] at ihr ⊢
        simp [Entry.isDir, hext, hget]
        exact ihr
      · simp only [recSelRes, List.filterMap_cons] at ihr ⊢
        simp [Entry.isDir, hext]
        exact ihr

/-- The records of a listing are exactly its record-file entries, one
each. -/
theorem recsel_length (L : List (Str × Entry)) :
    (L.filterMap (fun ne =>
        match ne.2 with
        | .file c =>
          if extOf ne.1 = recExt then some (trimSuffix ne.1 recExt, c)
          else none
        | .dir => none)).length
      = (L.filter
          (fun ne => decide (extOf ne.1 = recExt ∧ ne.2.isDir = false))).length := by
  induction L with
  | nil => rfl
  | cons ne rest ih =>
    obtain ⟨n, e⟩ := ne
    cases e with
    | dir => simp [List.filterMap_cons, List.filter_cons, Entry.isDir, ih]
    | file c =>
      by_cases hext : extOf n = recExt
      · simp [List.filterMap_cons, List.filter_cons, Entry.isDir, hext, ih]
      · simp [List.filterMap_cons, List.filter_cons, Entry.isDir, hext, ih]

/-- Running the reference evaluator over all-ok records with an all-ok
callback visits every record once, in order. -/
theorem runRecords_all_ok (cb : Str → Bytes → Except Err Unit)
    (R : List (Str × Bytes)) (hcb : ∀ kv ∈ R, cb kv.1 kv.2 = .ok ()) :
    runRecords cb (R.map (fun kv => (kv.1, Except.ok kv.2))) = (R, .ok ()) := by
  induction R with
  | nil => rfl
  | cons kv rest ih =>
    obtain ⟨k, v⟩ := kv
    have hk := hcb (k, v) (List.mem_cons_self _ _)
    have ihr := ih (fun x hx => hcb x (List.mem_cons_of_mem _ hx))
    simp only [List.map_cons, runRecords, hk, ihr]

/-- An error out of the reference evaluator over all-ok records comes from
the callback on the record right after the successful trace. -/
theorem runRecords_err_split (cb : Str → Bytes → Except Err Unit)
    (R : List (Str × Bytes)) (e : Err)
    (h : (runRecords cb (R.map (fun kv => (kv.1, Except.ok kv.2)))).2
      = .error e) :
    ∃ l x r, R = l ++ x :: r ∧
      (runRecords cb (R.map (fun kv => (kv.1, Except.ok kv.2)))).1
        = l ++ [x] ∧
      cb x.1 x.2 = .error e ∧ ∀ y ∈ l, cb y.1 y.2 = .ok () := by
  induction R with
  | nil => simp [runRecords] at h
  | cons kv rest ih =>
    obtain ⟨k, v⟩ := kv
    cases hc : cb k v with
    | error er =>
      have he : er = e := by
        simp only [List.map_cons, runRecords, hc] at h
        exact (Except.error.injEq _ _).mp h
      refine ⟨[], (k, v), rest, by simp, ?_, ?_, by simp⟩
      · simp [runRecords, hc]
      · rw [hc, he]
    | ok u =>
      cases u
      have h2 : (runRecords cb (rest.map (fun kv => (kv.1, Except.ok kv.2)))).2
          = .error e := by
        simpa [runRecords, hc] using h
      obtain ⟨l, x, r, hR, htr, hcx, hall⟩ := ih h2
      refine ⟨(k, v) :: l, x, r, by rw [hR, List.cons_append], ?_, hcx, ?_⟩
      · simp [runRecords, hc, htr]
      · intro y hy
        rcases List.mem_cons.mp hy with h1 | h1
        · rw [h1]
          exact hc
        · exact hall y h1

/-- The `ForEach` loop body is the reference evaluator over the record
selection of the listing. -/
theorem forEachAux_eq_run (tp : Str) (fs : FS)
    (cb : Str → Bytes → Except Err Unit) (L : List (Str × Entry)) :
    forEachAux tp fs cb L = runRecords cb (recSelRes tp fs L) := by
  induction L with
  | nil => rfl
  | cons ne rest ih =>
    obtain ⟨n, e⟩ := ne
    by_cases hc : extOf n = recExt ∧ e.isDir = false
    · have hsel : recSelRes tp fs ((n, e) :: rest)
          = (trimSuffix n recExt, Table.Get tp (trimSuffix n recExt) fs)
            :: recSelRes tp fs rest := by
        simp only [recSelRes, List.filterMap_cons]
        rw [if_pos hc]
      rw [hsel]
      cases hg : Table.Get tp (trimSuffix n recExt) fs with
      | error er => simp [forEachAux, hc, hg, runRecords]
      | ok v =>
        cases hcb : cb (trimSuffix n recExt) v with
        | error er2 => simp [forEachAux, hc, hg, hcb, runRecords]
        | ok u =>
          cases u
          simp [forEachAux, hc, hg, hcb, runRecords, ih]
    · have hsel : recSelRes tp fs ((n, e) :: rest) = recSelRes tp fs rest := by
        simp only [recSelRes, List.filterMap_cons]
        rw [if_neg hc]
      rw [hsel]
      simp only [forEachAux, if_neg hc]
      exact ih

/-- C7 — Over a table directory holding N record files (entries with the
record extension that are not directories) and any number of non-record
entries, with unique paths and no record under an external exclusive lock,
`ForEach` is the sequential run over exactly the record files in listing
order, each contributing its extension-stripped key and stored content
(`records`): it equals the reference evaluator (which stops at the first
`Get` or callback error and returns it); the record selection is the N
stored records tagged ok; N counts exactly the record-file entries; an
all-ok callback is invoked exactly N times, once per record with its key
and value; and when the callback errors, the trace is the successful
records followed by the failing one and that very error is returned. -/
theorem c7_foreach (tp : Str) (fs : FS) (cb : Str → Bytes → Except Err Unit)
    (hdir : fs.find tp = some .dir) (hwf : fs.wf)
    (hnl : ∀ ne ∈ dirList fs tp,
      fs.locks (joinPath tp ne.1) ≠ .exclusive) :
    Table.ForEach tp fs cb = runRecords cb (recsRes fs tp) ∧
    recsRes fs tp = (records fs tp).map (fun kv => (kv.1, Except.ok kv.2)) ∧
    (records fs tp).length
      = ((dirList fs tp).filter
          (fun ne => decide (extOf ne.1 = recExt ∧ ne.2.isDir = false))).length ∧
    ((∀ k v, cb k v = .ok ()) →
      Table.ForEach tp fs cb = (records fs tp, .ok ())) ∧
    (∀ e, (Table.ForEach tp fs cb).2 = .error e →
      ∃ l x r, records fs tp = l ++ x :: r ∧
        (Table.ForEach tp fs cb).1 = l ++ [x] ∧ cb x.1 x.2 = .error e ∧
        ∀ y ∈ l, cb y.1 y.2 = .ok ()) := by
  have hFE : Table.ForEach tp fs cb = runRecords cb (recsRes fs tp) := by
    unfold Table.ForEach
    rw [hdir]
    exact forEachAux_eq_run tp fs cb (dirList fs tp)
  have hRes : recsRes fs tp
      = (records fs tp).map (fun kv => (kv.1, Except.ok kv.2)) :=
    recSel_eq_records tp fs (dirList fs tp) (dirList_coh fs tp hwf) hnl
  refine ⟨hFE, hRes, recsel_length (dirList fs tp), ?_, ?_⟩
  · intro hcb
    rw [hFE, hRes]
    exact runRecords_all_ok cb (records fs tp) (fun kv _ => hcb kv.1 kv.2)
  · intro e he
    rw [hFE, hRes] at he
    obtain ⟨l, x, r, hR, htr, hcx, hall⟩ :=
      runRecords_err_split cb (records fs tp) e he
    refine ⟨l, x, r, hR, ?_, hcx, hall⟩
    rw [hFE, hRes]
    exact htr

/-- Witness for C7: a table with one record file and one non-record file;
the all-ok callback is invoked exactly once, with the stripped key and the
stored value. -/
theorem c7_foreach_witness :
    Table.ForEach sampTp fsIter (fun _ _ => Except.ok ())
      = (records fsIter sampTp, .ok ()) ∧
    records fsIter sampTp = [(['a'], [5])] :=
  ⟨(c7_foreach sampTp fsIter (fun _ _ => Except.ok ()) rfl
      (by unfold FS.wf; decide) (by decide)).2.2.2.1 (fun _ _ => rfl),
    by rfl⟩

/-- The final path element contains no separator. -/
theorem lastElem_no_sep (p : Str) : pathSep ∉ lastElem p := by
  unfold lastElem
  intro h
  have h2 := tw_mem (fun c => c != pathSep) p.reverse pathSep
    (List.mem_reverse.mp h)
  simp at h2

/-- The extension of a path is the extension of its final element. -/
theorem extOf_lastElem (p : Str) : extOf p = extOf (lastElem p) := by
  have hidem : (p.reverse.takeWhile (fun c => c != pathSep)).takeWhile
      (fun c => c != pathSep) = p.reverse.takeWhile (fun c => c != pathSep) :=
    tw_all _ _ (fun x hx => tw_mem _ _ x hx)
  unfold extOf lastElem
  rw [List.reverse_reverse, hidem]

/-- A path strictly under the root is not the root. -/
theorem under_ne_root (root p : Str)
    (h : (root ++ [pathSep]).isPrefixOf p = true) : p ≠ root := by
  obtain ⟨rest, hr⟩ := List.isPrefixOf_iff_prefix.mp h
  intro heq
  subst heq
  have hlen := congrArg List.length hr
  simp [List.length_append] at hlen

/-- The walk output's paths are drawn one-for-one from the visited
entries. -/
theorem tablesMap_sublist (f : (Str × Entry) → Option (Str × Str))
    (hf : ∀ pe x, f pe = some x → x.2 = pe.1) (l : List (Str × Entry)) :
    ((l.filterMap f).map Prod.snd).Sublist (l.map Prod.fst) := by
  induction l with
  | nil => simp
  | cons pe rest ih =>
    rw [List.filterMap_cons]
    cases hf2 : f pe with
    | none =>
      simp only [List.map_cons]
      exact ih.cons _
    | some x =>
      simp only [List.map_cons]
      rw [hf pe x hf2]
      exact ih.cons₂ _

/-- C8 — `Tables()` never reads the cache (the answer is the same for
every cached mapping, and the walk consults only the filesystem), and it
returns exactly one pair for the root (with the empty name) plus one pair
for each directory entry under the root whose extension is the table
suffix, named by stripping the root prefix and the suffix; paths in the
answer are pairwise distinct, and plain files and non-table directories
never appear.  Having extension `tblExt` is the same as the final path
element ending in the table-directory suffix. -/
theorem c8_tables (root : Str) (c1 c2 : List (Str × Str)) (fs : FS)
    (hwf : fs.wf) :
    DB.Tables ⟨root, c1⟩ fs = DB.Tables ⟨root, c2⟩ fs ∧
    (∀ n p, (n, p) ∈ DB.Tables ⟨root, c1⟩ fs ↔
      ((p = root ∧ n = []) ∨
        ((p, Entry.dir) ∈ fs.entries ∧
          (root ++ [pathSep]).isPrefixOf p = true ∧ extOf p = tblExt ∧
          n = trimSuffix (trimPref (root ++ [pathSep]) p) tblExt))) ∧
    ((DB.Tables ⟨root, c1⟩ fs).map Prod.snd).Nodup ∧
    (∀ p, extOf p = tblExt ↔ tblExt.isSuffixOf (lastElem p) = true) := by
  refine ⟨rfl, ?_, ?_, ?_⟩
  · intro n p
    unfold DB.Tables
    rw [List.mem_filterMap]
    constructor
    · rintro ⟨a, ha, hfa⟩
      obtain ⟨q, d⟩ := a
      simp only at hfa
      rcases List.mem_cons.mp ha with hhead | htail
      · injection hhead with h1 h2
        subst h1
        subst h2
        rw [if_neg ?hc1, if_pos rfl] at hfa
        case hc1 =>
          rintro (h1 | ⟨h2, h3⟩)
          · simp [Entry.isDir] at h1
          · exact h3 rfl
        cases hfa
        exact Or.inl ⟨rfl, rfl⟩
      · obtain ⟨hmem, hpre⟩ := List.mem_filter.mp htail
        simp only at hpre
        have hne := under_ne_root root q hpre
        by_cases hcond : d.isDir = false ∨ (extOf q ≠ tblExt ∧ q ≠ root)
        · rw [if_pos hcond] at hfa
          cases hfa
        · rw [if_neg hcond] at hfa
          have hd : d = Entry.dir := by
            cases d
            · exact absurd (Or.inl rfl) hcond
            · rfl
          subst hd
          have hext : extOf q = tblExt := by
            by_contra hx
            exact hcond (Or.inr ⟨hx, hne⟩)
          rw [if_neg hne] at hfa
          cases hfa
          exact Or.inr ⟨hmem, hpre, hext, rfl⟩
    · rintro (⟨hp, hn⟩ | ⟨hmem, hpre, hext, hn⟩)
      · subst hn
        rw [hp]
        refine ⟨(root, Entry.dir), List.mem_cons_self _ _, ?_⟩
        have hc2 : ¬(Entry.isDir Entry.dir = false ∨
            (extOf root ≠ tblExt ∧ root ≠ root)) := by
          rintro (h1 | ⟨h2, h3⟩)
          · simp [Entry.isDir] at h1
          · exact h3 rfl
        simp only
        rw [if_neg hc2]
        simp
      · subst hn
        refine ⟨(p, Entry.dir),
          List.mem_cons_of_mem _ (List.mem_filter.mpr ⟨hmem, ?_⟩), ?_⟩
        · simp only
          exact hpre
        · simp only
          rw [if_neg ?hc3, if_neg (under_ne_root root p hpre)]
          case hc3 =>
            rintro (h1 | ⟨h2, h3⟩)
            · simp [Entry.isDir] at h1
            · exact h2 hext
  · have hsub : ((DB.Tables ⟨root, c1⟩ fs).map Prod.snd).Sublist
        (root :: (fs.entries.filter
          (fun pe => (root ++ [pathSep]).isPrefixOf pe.1)).map Prod.fst) := by
      unfold DB.Tables
      exact tablesMap_sublist _
        (fun pe x hx => by
          split at hx
          · cases hx
          · cases hx
            rfl) _
    have hnod : (root :: (fs.entries.filter
        (fun pe => (root ++ [pathSep]).isPrefixOf pe.1)).map Prod.fst).Nodup := by
      rw [List.nodup_cons]
      constructor
      · intro hmem
        obtain ⟨pe, hpe, hfst⟩ := List.mem_map.mp hmem
        have hpred := (List.mem_filter.mp hpe).2
        simp only at hpred
        exact under_ne_root root pe.1 hpred hfst
      · exact hwf.sublist ((List.filter_sublist _).map Prod.fst)
    exact hnod.sublist hsub
  · intro p
    rw [extOf_lastElem p]
    constructor
    · intro h
      obtain ⟨s, hs, -⟩ := extOf_eq_dotted (lastElem p) ['t', 'b', 'l']
        (lastElem_no_sep p) (by simpa [tblExt] using h)
      rw [List.isSuffixOf_iff_suffix]
      exact ⟨s, hs.symm⟩
    · intro h
      obtain ⟨s, hs⟩ := List.isSuffixOf_iff_suffix.mp h
      have hsep2 : pathSep ∉ s := by
        intro hx
        apply lastElem_no_sep p
        rw [← hs]
        exact List.mem_append.mpr (Or.inl hx)
      rw [← hs]
      exact extOf_append_dotted s ['t', 'b', 'l'] hsep2 (by decide) (by decide)

/-- Witness for C8: a root with one table directory, one plain directory
and one plain file; the characterization instantiated at the table
directory, plus cache independence and distinctness. -/
theorem c8_tables_witness :
    DB.Tables ⟨rootSamp, []⟩ fsWalk = DB.Tables ⟨rootSamp, cacheSamp⟩ fsWalk ∧
    ((['a'], joinPath rootSamp ['a', '.', 't', 'b', 'l'])
        ∈ DB.Tables ⟨rootSamp, []⟩ fsWalk ↔
      ((joinPath rootSamp ['a', '.', 't', 'b', 'l'] = rootSamp ∧ ['a'] = []) ∨
        ((joinPath rootSamp ['a', '.', 't', 'b', 'l'], Entry.dir)
            ∈ fsWalk.entries ∧
          (rootSamp ++ [pathSep]).isPrefixOf
              (joinPath rootSamp ['a', '.', 't', 'b', 'l']) = true ∧
          extOf (joinPath rootSamp ['a', '.', 't', 'b', 'l']) = tblExt ∧
          ['a'] = trimSuffix (trimPref (rootSamp ++ [pathSep])
              (joinPath rootSamp ['a', '.', 't', 'b', 'l'])) tblExt))) ∧
    ((DB.Tables ⟨rootSamp, []⟩ fsWalk).map Prod.snd).Nodup :=
  ⟨(c8_tables rootSamp [] cacheSamp fsWalk (by unfold FS.wf; decide)).1,
    (c8_tables rootSamp [] cacheSamp fsWalk (by unfold FS.wf; decide)).2.1
      ['a'] (joinPath rootSamp ['a', '.', 't', 'b', 'l']),
    (c8_tables rootSamp [] cacheSamp fsWalk (by unfold FS.wf; decide)).2.2.1⟩

end Flockd
